import Mathlib

/-!
Verification development for scdl (src/scdl/scdl.py), a single-file
Soundcloud track downloader.  The definitions below are a shallow embedding
of the functions of scdl.py: Python strings are modelled as Lean strings
(sequences of Unicode code points) and all string manipulation is done on
their character lists; the filesystem, the download-archive file and the
network are modelled as explicit state threaded through the pipeline
functions; `sys.exit` is modelled with `Except`.
-/

namespace Scdl

/-- Byte count of one character under UTF-8, modelling the contribution of a
code point to `len(s.encode("utf-8"))`. -/
def csize (c : Char) : Nat :=
  if c.toNat < 128 then 1
  else if c.toNat < 2048 then 2
  else if c.toNat < 65536 then 3
  else 4

/-- UTF-8 byte length of a character list. -/
def byteLenL (l : List Char) : Nat := (l.map csize).sum

/-- UTF-8 byte length of a string: `len(s.encode("utf-8"))`. -/
def byteLen (s : String) : Nat := byteLenL s.data

/-- Substring test on character lists (Python `needle in hay`). -/
def containsSub (needle : List Char) : List Char → Bool
  | [] => needle.isEmpty
  | c :: rest => needle.isPrefixOf (c :: rest) || containsSub needle rest

/-- Python `needle in hay` on strings. -/
def pyIn (needle hay : String) : Bool := containsSub needle.data hay.data

/-- Python `s.strip()`: remove leading and trailing whitespace. -/
def pyStrip (s : String) : String :=
  ⟨((s.data.dropWhile Char.isWhitespace).reverse.dropWhile Char.isWhitespace).reverse⟩

/-- ASCII lowercasing of one character, modelling Python `str.lower()` on the
extensions scdl produces (which are ASCII; non-ASCII characters are kept). -/
def lowerChar : Char → Char
  | 'A' => 'a' | 'B' => 'b' | 'C' => 'c' | 'D' => 'd' | 'E' => 'e' | 'F' => 'f'
  | 'G' => 'g' | 'H' => 'h' | 'I' => 'i' | 'J' => 'j' | 'K' => 'k' | 'L' => 'l'
  | 'M' => 'm' | 'N' => 'n' | 'O' => 'o' | 'P' => 'p' | 'Q' => 'q' | 'R' => 'r'
  | 'S' => 's' | 'T' => 't' | 'U' => 'u' | 'V' => 'v' | 'W' => 'w' | 'X' => 'x'
  | 'Y' => 'y' | 'Z' => 'z'
  | c => c

/-- Python `s.lower()` (ASCII model). -/
def pyLower (s : String) : String := ⟨s.data.map lowerChar⟩

/-- Characters illegal in filenames on common filesystems (control characters
and the reserved punctuation of Windows/POSIX). -/
def illegalChar (c : Char) : Bool :=
  c.toNat < 32 || c == '\\' || c == '/' || c == ':' || c == '*' ||
    c == '?' || c == '"' || c == '<' || c == '>' || c == '|'

/-- Modelled from the spec: `pathvalidate.sanitize_filename`, an external
library used by scdl.py at line 398; per the spec it strips characters
illegal on common filesystems from the composed name. -/
def sanitize_filename (s : String) : String :=
  ⟨s.data.filter (fun c => !illegalChar c)⟩

/-- Position of the rightmost '.' in a character list, if any. -/
def lastDotPos (l : List Char) : Option Nat :=
  match l.reverse.findIdx? (· == '.') with
  | none => none
  | some j => some (l.length - 1 - j)

/-- Python `os.path.splitext` for plain filenames: split at the rightmost
dot, except when every character before it is itself a dot (so that names
like `.bashrc` keep an empty extension). -/
def splitext (s : String) : String × String :=
  match lastDotPos s.data with
  | none => (s, "")
  | some i =>
    if (s.data.take i).all (· == '.') then (s, "")
    else (⟨s.data.take i⟩, ⟨s.data.drop i⟩)

/-- Python slicing `s[:-n]`: drop the last `n` characters. -/
def pyDropRight (s : String) (n : Nat) : String :=
  ⟨s.data.take (s.data.length - n)⟩

/-- Python `s.endswith(suffix)`. -/
def pyEndswith (s suffix : String) : Bool :=
  suffix.data.reverse.isPrefixOf s.data.reverse

/-- Python truthiness of an optional string (`None` and `""` are falsy). -/
def pyTruthy : Option String → Bool
  | none => false
  | some s => !(s == "")

/-- Python `s.startswith(p)`. -/
def pyStartswith (s p : String) : Bool := p.data.isPrefixOf s.data

/-- Worker for `pySplit`: scan the haystack left to right, cutting a segment
whenever the separator is a prefix of the remainder.  The fuel (initially the
haystack length) only serves to make the recursion structural; one character
is consumed per step, so it never runs out. -/
def pySplitGo (sep : List Char) : Nat → List Char → List Char → List (List Char)
  | _, [], acc => [acc.reverse]
  | 0, l, acc => [acc.reverse ++ l]
  | fuel + 1, c :: rest, acc =>
    if sep.isPrefixOf (c :: rest) then
      acc.reverse :: pySplitGo sep fuel (List.drop sep.length (c :: rest)) []
    else pySplitGo sep fuel rest (c :: acc)

/-- Python `s.split(sep)` for a non-empty separator. -/
def pySplit (s sep : String) : List String :=
  (pySplitGo sep.data s.data.length s.data []).map (fun l => ⟨l⟩)

/-- Replace every (leftmost, non-overlapping) occurrence of `pat` by `rep`. -/
def replaceAll (s pat rep : String) : String :=
  if pat == "" then s else String.intercalate rep (pySplit s pat)

/-- One stream rendition of a track (`track.media.transcodings` entries). -/
structure Transcoding where
  protocol : String
  mime_type : String
deriving DecidableEq

/-- The track fields scdl.py reads (a `BasicTrack` of the soundcloud API). -/
structure Track where
  id : Nat
  title : String
  username : String
  created_at_ts : Int
  streamable : Bool
  policy : String
  downloadable : Bool
  has_downloads_left : Bool
  transcodings : List Transcoding
deriving DecidableEq

/-- The `playlist_info` dict built by `download_playlist`. -/
structure PlaylistInfo where
  author : String
  title : String
  tracknumber : String
deriving DecidableEq

/-- The command-line arguments (`kwargs`) consumed by the pipeline functions.
The download-archive option is modelled as a Boolean flag; the archive file's
lines are threaded separately as a `List String`. -/
structure Kwargs where
  onlymp3 : Bool := false
  no_original : Bool := false
  only_original : Bool := false
  flac : Bool := false
  overwrite : Bool := false
  c : Bool := false
  remove : Bool := false
  force_metadata : Bool := false
  download_archive : Bool := false
  original_name : Bool := false
  addtofile : Bool := false
  addtimestamp : Bool := false
  extract_artist : Bool := false
  name_format : String := "{title}"
  playlist_name_format : String := "{title}"
deriving DecidableEq

/-- Modelled from the spec: Python `str.format` applied to the name
templates (scdl.py lines 386-388), restricted to the placeholder names the
program's templates draw from the track, the playlist context and the
timestamp.  No claim depends on the details of template expansion. -/
def pyFormat (tmpl : String) (track : Track) (pl : Option PlaylistInfo)
    (timestamp : String) : String :=
  let s := replaceAll tmpl "{title}" track.title
  let s := replaceAll s "{id}" (toString track.id)
  let s := replaceAll s "{user[username]}" track.username
  let s := replaceAll s "{timestamp}" timestamp
  match pl with
  | none => s
  | some p =>
    let s := replaceAll s "{playlist[author]}" p.author
    let s := replaceAll s "{playlist[title]}" p.title
    replaceAll s "{playlist[tracknumber]}" p.tracknumber

/-- One iteration budget hull of the truncation loop of `get_filename`
(scdl.py lines 395-396):
`while len(title.encode("utf-8")) > 255 - len(ext.encode("utf-8")): title = title[:-1]`.
The guard is stated over `Nat` (`byteLenL l + extB > 255` is the integer
inequality `len(title) > 255 - len(ext)`).  Each iteration drops the last
character; fuel equal to the title length suffices whenever the extension
fits in 255 bytes (proved below), which is the only case in which the
Python loop terminates. -/
def truncFuel (extB : Nat) : Nat → List Char → List Char
  | 0, l => l
  | fuel + 1, l =>
    if byteLenL l + extB > 255 then truncFuel extB fuel l.dropLast else l

/-- The truncation loop of `get_filename`, with fuel set to the title
length. -/
def truncTitle (title ext : String) : String :=
  ⟨truncFuel (byteLen ext) title.data.length title.data⟩

/-- Extension resolution of `get_filename` (scdl.py lines 390-393):
`.m4a` for aac else `.mp3`, overridden by the extension of a known original
filename (`if original_filename is not None`). -/
def chosenExt (aac : Bool) (original_filename : Option String) : String :=
  match original_filename with
  | some o => (splitext o).2
  | none => if aac then ".m4a" else ".mp3"

/-- Shallow embedding of `get_filename` (scdl.py lines 367-399). -/
def get_filename (track : Track) (original_filename : Option String)
    (aac : Bool) (playlist_info : Option PlaylistInfo) (kw : Kwargs) : String :=
  if kw.original_name && pyTruthy original_filename then
    original_filename.getD ""
  else
    let username := track.username
    let title := track.title
    let title :=
      if kw.addtofile && !(pyIn username title) && !(pyIn "-" title) then
        username ++ " - " ++ title
      else title
    let timestamp := toString track.created_at_ts
    let title := if kw.addtimestamp then timestamp ++ "_" ++ title else title
    let title :=
      if !kw.addtofile && !kw.addtimestamp then
        match playlist_info with
        | some pl => pyFormat kw.playlist_name_format track (some pl) timestamp
        | none => pyFormat kw.name_format track none timestamp
      else title
    let ext := chosenExt aac original_filename
    let title := truncTitle title ext
    sanitize_filename (title ++ pyLower ext)

/-- Shallow embedding of `can_convert` (scdl.py lines 591-593). -/
def can_convert (filename : String) : Bool :=
  let ext := (splitext filename).2
  pyIn "wav" ext || pyIn "aif" ext

/-- The working directory, modelled as the list of regular files present. -/
structure FS where
  files : List String
deriving DecidableEq

/-- Model of `os.path.isfile`. -/
def isfile (fs : FS) (f : String) : Bool := fs.files.any (fun g => g == f)

/-- Model of `os.remove`. -/
def removeFile (fs : FS) (f : String) : FS :=
  ⟨fs.files.filter (fun g => !(g == f))⟩

/-- A file coming into existence (a completed download / conversion). -/
def addFile (fs : FS) (f : String) : FS := ⟨fs.files ++ [f]⟩

/-- Shallow embedding of `in_download_archive` (scdl.py lines 632-651).  The
archive file's lines (without their trailing newline) are `archive`; with the
option off the Python function falls through and returns `None`, modelled as
`none`.  I/O errors (logged, treated as not-found) are outside the model. -/
def in_download_archive (track : Track) (kw : Kwargs)
    (archive : List String) : Option Bool :=
  if !kw.download_archive then none
  else some (archive.any (fun line => pyStrip line == toString track.id))

/-- Shallow embedding of `record_download_archive` (scdl.py lines 654-667):
append `f"{track.id}\n"` to the archive file, i.e. one more line holding the
decimal id. -/
def record_download_archive (track : Track) (kw : Kwargs)
    (archive : List String) : List String :=
  if !kw.download_archive then archive
  else archive ++ [toString track.id]

/-- Verdict of `already_downloaded`: `absent` is Python `return False`
(acquire), `skip` is `return True` (already done), `fatal` is the
`sys.exit(-1)` at line 628. -/
inductive DlCheck where
  | absent
  | skip
  | fatal
deriving DecidableEq

/-- Shallow embedding of `already_downloaded` (scdl.py lines 596-629),
returning the verdict together with the filesystem after any overwrite
deletions.  The four statements of the source are translated in order:
target-file check (602-606), converted-`.flac`-sibling check (607-615),
archive-membership check (616-617), and the flac-mode override (619-620)
which looks at the filesystem as left by the earlier deletions. -/
def already_downloaded (track : Track) (filename : String) (kw : Kwargs)
    (fs : FS) (archive : List String) : DlCheck × FS :=
  let ad0 : Bool := false
  let step1 : Bool × FS :=
    if isfile fs filename then
      if kw.overwrite then (false, removeFile fs filename) else (true, fs)
    else (ad0, fs)
  let ad1 := step1.1
  let fs1 := step1.2
  let step2 : Bool × FS :=
    if kw.flac && can_convert filename &&
        isfile fs1 (pyDropRight filename 4 ++ ".flac") then
      if kw.overwrite then
        (false, removeFile fs1 (pyDropRight filename 4 ++ ".flac"))
      else (true, fs1)
    else (ad1, fs1)
  let ad2 := step2.1
  let fs2 := step2.2
  let ad3 :=
    if kw.download_archive && (in_download_archive track kw archive).getD false
    then true else ad2
  let ad4 :=
    if kw.flac && can_convert filename && isfile fs2 filename then false
    else ad3
  if ad4 then
    if kw.c || kw.remove || kw.force_metadata then (DlCheck.skip, fs2)
    else (DlCheck.fatal, fs2)
  else (DlCheck.absent, fs2)

/-- The artist/title assignment of `set_metadata` (scdl.py lines 710-717):
artist defaults to the uploader's username; with `--extract-artist`, the
first dash variant (in the listed order) occurring anywhere in the title
splits it, artist becoming `split[0].strip()` and title `split[1].strip()`. -/
def dashes : List String := [" - ", " − ", " – ", " — ", " ― "]

/-- Shallow embedding of the artist/title rewriting of `set_metadata`
(scdl.py lines 710-717); returns `(artist, title)`. -/
def set_metadata_artist_title (username title : String)
    (extract_artist : Bool) : String × String :=
  let artist := username
  if extract_artist then
    match dashes.find? (fun dash => pyIn dash title) with
    | some dash =>
      let artist_title := pySplit title dash
      (pyStrip (artist_title.getD 0 ""), pyStrip (artist_title.getD 1 ""))
    | none => (artist, title)
  else (artist, title)

/-- Observable actions of one pipeline run, in chronological order. -/
inductive Ev where
  | attemptOriginal
  | origRequest
  | origBodyDownload
  | convert (src dst : String)
  | attemptStream
  | streamDownload
  | keep (f : String)
  | alreadyMsg
  | tag (f : String)
  | tagUnsupported
  | setUtime (f : String)
  | finished (f : String)
deriving DecidableEq

/-- The state a pipeline run reads and writes: the working directory, the
lines of the download-archive file, and the trace of observable actions. -/
structure World where
  fs : FS
  archive : List String
  events : List Ev
deriving DecidableEq

/-- Append one observable action to the trace. -/
def emit (w : World) (e : Ev) : World := { w with events := w.events ++ [e] }

/-- Oracle for the network: the answers the catalog service and the HTTP
responses give during one `download_original_file` / `download_hls` call. -/
structure Net where
  orig_url : Option Unit
  status : Nat
  disp_filename : String
  mime_ext : Option String
  transfer_ok : Bool
  stream_ok : Bool
deriving DecidableEq

/-- World reached by a call that may have exited (`sys.exit` is `.error`). -/
def resultWorld : Except World World → World
  | .error w => w
  | .ok w => w

/-- World reached by a call returning a value alongside the state. -/
def worldOf {α : Type} : Except World (α × World) → World
  | .error w => w
  | .ok (_, w) => w

/-- Extension swap `filename[:-4] + ".flac"` (scdl.py lines 437 and 462). -/
def flacSibling (filename : String) : String := pyDropRight filename 4 ++ ".flac"

/-- The provisional original filename of `download_original_file` (scdl.py
lines 422-429): the name from content-disposition, its extension replaced by
the one guessed from the response's media type when available. -/
def provisional_name (net : Net) : String :=
  (splitext net.disp_filename).1 ++
    (match net.mime_ext with | some m => m | none => (splitext net.disp_filename).2)

/-- The part of `download_original_file` after the final filename is known
(scdl.py lines 434-470): the idempotency check with its skip and fatal
outcomes, the body transfer with its byte-count check, and the optional
ffmpeg flac conversion that replaces the file and renames the result. -/
def original_file_rest (net : Net) (track : Track) (kw : Kwargs)
    (filename : String) (w : World) :
    Except World ((Option String × Bool) × World) :=
  match already_downloaded track filename kw w.fs w.archive with
  | (DlCheck.fatal, fs1) => .error { w with fs := fs1 }
  | (DlCheck.skip, fs1) =>
    let w := { w with fs := fs1 }
    if kw.flac && can_convert filename then
      .ok ((some (flacSibling filename), true), w)
    else .ok ((some filename, true), w)
  | (DlCheck.absent, fs1) =>
    let w := { w with fs := fs1 }
    let w := emit w Ev.origBodyDownload
    if !net.transfer_ok then .error w
    else
      let w := { w with fs := addFile w.fs filename }
      if kw.flac && can_convert filename then
        let newf := flacSibling filename
        let w := emit w (Ev.convert filename newf)
        .ok ((some newf, false),
          { w with fs := addFile (removeFile w.fs filename) newf })
      else .ok ((some filename, false), w)

/-- Shallow embedding of `download_original_file` (scdl.py lines 402-470).
The `requests.get(url, stream=True)` header fetch is the `origRequest`
action; consuming the body (lines 441-453) is `origBodyDownload`; a byte
mismatch (lines 455-457) is the fatal exit. -/
def download_original_file (net : Net) (track : Track) (kw : Kwargs)
    (playlist_info : Option PlaylistInfo) (w : World) :
    Except World ((Option String × Bool) × World) :=
  let w := emit w Ev.attemptOriginal
  match net.orig_url with
  | none => .ok ((none, false), w)
  | some _ =>
    let w := emit w Ev.origRequest
    if net.status == 401 then .ok ((none, false), w)
    else if net.status == 404 then .ok ((none, false), w)
    else
      let filename :=
        get_filename track (some (provisional_name net)) false playlist_info kw
      original_file_rest net track kw filename w

/-- Codec preference of `download_hls` (scdl.py lines 493-499): AAC unless
mp3-only is set or no audio/mp4 rendition exists. -/
def hls_aac (track : Track) (kw : Kwargs) : Bool :=
  if kw.onlymp3 then false
  else track.transcodings.any (fun t => pyStartswith t.mime_type "audio/mp4")

/-- Shallow embedding of `download_hls` (scdl.py lines 491-517).  The m3u8
fetch plus the ffmpeg remux are the single `streamDownload` action; the
output file exists afterwards iff the oracle's `stream_ok` holds (the caller
judges success by the file's existence). -/
def download_hls (net : Net) (track : Track) (kw : Kwargs)
    (playlist_info : Option PlaylistInfo) (w : World) :
    Except World ((String × Bool) × World) :=
  let w := emit w Ev.attemptStream
  let filename := get_filename track none (hls_aac track kw) playlist_info kw
  match already_downloaded track filename kw w.fs w.archive with
  | (DlCheck.fatal, fs1) => .error { w with fs := fs1 }
  | (DlCheck.skip, fs1) => .ok ((filename, true), { w with fs := fs1 })
  | (DlCheck.absent, fs1) =>
    let w := { w with fs := fs1 }
    let w := emit w Ev.streamDownload
    let w := if net.stream_ok then { w with fs := addFile w.fs filename } else w
    .ok ((filename, false), w)

/-- Whether `download_track` will try to write tags into the file
(scdl.py lines 572-576). -/
def is_taggable (filename : String) : Bool :=
  pyEndswith filename ".mp3" || pyEndswith filename ".flac" ||
    pyEndswith filename ".m4a"

/-- Shallow embedding of the tail of `download_track` (scdl.py lines
555-588): the `fileToKeep` bookkeeping, the unconditional
`record_download_archive` call, the early return for an already-downloaded
track without `--force-metadata`, the missing-file fatal exit, the
extension-gated tagging, and the timestamp update plus completion. -/
def finish_track (track : Track) (kw : Kwargs) (filename : String)
    (is_already_downloaded : Bool) (w : World) : Except World World :=
  let w := if kw.remove then emit w (Ev.keep filename) else w
  let w := { w with archive := record_download_archive track kw w.archive }
  if is_already_downloaded && !kw.force_metadata then .ok (emit w Ev.alreadyMsg)
  else if !isfile w.fs filename then .error w
  else
    let w :=
      if is_taggable filename then emit w (Ev.tag filename)
      else emit w Ev.tagUnsupported
    let w := emit w (Ev.setUtime filename)
    .ok (emit w (Ev.finished filename))

/-- Shallow embedding of `download_track` (scdl.py lines 520-588): the
not-streamable and geo-blocked early returns, the source-selection guard of
lines 541-546, the fallback from the original file to the HLS stream, the
`--only-original` skip, and the shared finishing steps. -/
def download_track (net : Net) (track : Track) (kw : Kwargs)
    (playlist_info : Option PlaylistInfo) (w : World) : Except World World :=
  if !track.streamable then .ok w
  else if track.policy == "BLOCK" then .ok w
  else
    let orig : Except World ((Option String × Bool) × World) :=
      if track.downloadable && track.has_downloads_left &&
          !kw.onlymp3 && !kw.no_original then
        download_original_file net track kw playlist_info w
      else .ok ((none, false), w)
    match orig with
    | .error w1 => .error w1
    | .ok ((some filename, already), w1) =>
      finish_track track kw filename already w1
    | .ok ((none, _), w1) =>
      if kw.only_original then .ok w1
      else
        match download_hls net track kw playlist_info w1 with
        | .error w2 => .error w2
        | .ok ((filename, already), w2) => finish_track track kw filename already w2

/-- Two consecutive pipeline runs on the same track, `none` if either run
exits fatally. -/
def runTrackTwice (net : Net) (track : Track) (kw : Kwargs)
    (playlist_info : Option PlaylistInfo) (w : World) : Option World :=
  match download_track net track kw playlist_info w with
  | .error _ => none
  | .ok w1 =>
    match download_track net track kw playlist_info w1 with
    | .error _ => none
    | .ok w2 => some w2

/-- A plain concrete track used to instantiate theorems. -/
def cexTrack : Track :=
  { id := 42, title := "t", username := "u", created_at_ts := 5,
    streamable := true, policy := "ALLOW", downloadable := false,
    has_downloads_left := false, transcodings := [] }

/-- Concrete arguments: archive tracking on, continue flag on, timestamped
names. -/
def cexKw : Kwargs := { download_archive := true, c := true, addtimestamp := true }

/-- Concrete network oracle: no original download link, working stream. -/
def cexNet : Net :=
  { orig_url := none, status := 200, disp_filename := "", mime_ext := none,
    transfer_ok := true, stream_ok := true }

/-- Empty starting state: no files, empty archive, empty trace. -/
def emptyWorld : World := ⟨⟨[]⟩, [], []⟩

/-- The spec's byte-length scenario: a title of 300 'A' characters. -/
def trackA300 : Track :=
  { id := 1, title := ⟨List.replicate 300 'A'⟩, username := "A",
    created_at_ts := 0, streamable := true, policy := "ALLOW",
    downloadable := false, has_downloads_left := false, transcodings := [] }

/-- Arguments for the byte-length scenario (the add-artist branch leaves the
title unchanged because the username occurs in it). -/
def kwScenario : Kwargs := { addtofile := true }

/-- A second concrete track, with a different id, for the C6 witness. -/
def cexTrack2 : Track :=
  { id := 7, title := "t2", username := "u", created_at_ts := 5,
    streamable := true, policy := "ALLOW", downloadable := false,
    has_downloads_left := false, transcodings := [] }

/-- Whether a pipeline call returned normally (did not exit). -/
def isOk : Except World World → Bool
  | .ok _ => true
  | .error _ => false

/-- A concrete downloadable track whose original file is a `.wav`. -/
def wavTrack : Track :=
  { id := 9, title := "song", username := "u", created_at_ts := 5,
    streamable := true, policy := "ALLOW", downloadable := true,
    has_downloads_left := true, transcodings := [] }

/-- Network oracle serving that original `.wav` file successfully. -/
def wavNet : Net :=
  { orig_url := some (), status := 200, disp_filename := "song.wav",
    mime_ext := none, transfer_ok := true, stream_ok := true }

/-- Arguments keeping the original file name (so the run ends on `song.wav`,
an extension that does not support tagging). -/
def wavKw : Kwargs := { original_name := true }

/-! ## Helper lemmas about byte lengths and the truncation loop -/

theorem csize_pos (c : Char) : 1 ≤ csize c := by
  unfold csize; split_ifs <;> omega

theorem byteLenL_append (a b : List Char) :
    byteLenL (a ++ b) = byteLenL a + byteLenL b := by
  simp [byteLenL]

theorem byteLenL_dropLast_lt (l : List Char) (h : l ≠ []) :
    byteLenL l.dropLast < byteLenL l := by
  conv_rhs => rw [← List.dropLast_append_getLast h]
  rw [byteLenL_append]
  have := csize_pos (l.getLast h)
  simp [byteLenL]
  omega

theorem truncFuel_nil (e fuel : Nat) (h : e ≤ 255) : truncFuel e fuel [] = [] := by
  cases fuel with
  | zero => rfl
  | succ n =>
    simp only [truncFuel, byteLenL]
    rw [if_neg]
    simp
    omega

theorem truncFuel_bound (e : Nat) (he : e ≤ 255) :
    ∀ (n : Nat) (l : List Char), l.length ≤ n →
      byteLenL (truncFuel e n l) + e ≤ 255 := by
  intro n
  induction n with
  | zero =>
    intro l hl
    have : l = [] := List.length_eq_zero.mp (Nat.le_zero.mp hl)
    subst this
    simpa [truncFuel, byteLenL] using he
  | succ n ih =>
    intro l hl
    simp only [truncFuel]
    split_ifs with hg
    · have hne : l ≠ [] := by
        intro h
        subst h
        simp [byteLenL] at hg
        omega
      apply ih
      rw [List.length_dropLast]
      omega
    · omega

theorem truncFuel_stable (e : Nat) (he : e ≤ 255) :
    ∀ (n k : Nat) (l : List Char), l.length ≤ n →
      truncFuel e (n + k) l = truncFuel e n l := by
  intro n
  induction n with
  | zero =>
    intro k l hl
    have : l = [] := List.length_eq_zero.mp (Nat.le_zero.mp hl)
    subst this
    rw [truncFuel_nil e _ he, truncFuel_nil e _ he]
  | succ n ih =>
    intro k l hl
    have hshift : n + 1 + k = (n + k) + 1 := by omega
    rw [hshift]
    simp only [truncFuel]
    split_ifs with hg
    · have hne : l ≠ [] := by
        intro h
        subst h
        simp [byteLenL] at hg
        omega
      apply ih
      rw [List.length_dropLast]
      omega
    · rfl

theorem byteLenL_filter_le (p : Char → Bool) (l : List Char) :
    byteLenL (l.filter p) ≤ byteLenL l := by
  induction l with
  | nil => simp [byteLenL]
  | cons c rest ih =>
    by_cases h : p c
    · simp [byteLenL, List.filter_cons, h] at ih ⊢
      omega
    · simp only [List.filter_cons, h, Bool.false_eq_true, if_false]
      have : byteLenL (c :: rest) = csize c + byteLenL rest := by
        simp [byteLenL]
      omega

theorem csize_lowerChar (c : Char) : csize (lowerChar c) = csize c := by
  unfold lowerChar
  split <;> rfl

theorem byteLenL_map_lowerChar (l : List Char) :
    byteLenL (l.map lowerChar) = byteLenL l := by
  induction l with
  | nil => rfl
  | cons c rest ih => simp [byteLenL, csize_lowerChar] at ih ⊢; omega

theorem data_append (a b : String) : (a ++ b).data = a.data ++ b.data := by
  cases a; cases b; rfl

theorem lowerChar_legal (c : Char) (h : illegalChar c = false) :
    illegalChar (lowerChar c) = false := by
  unfold lowerChar
  split <;> first | rfl | exact h

/-- Combined bound for the composed filename `trunc(title) ++ ext.lower()`
after sanitization. -/
theorem compose_bound (T ext : String) (h : byteLen ext ≤ 255)
    (hleg : ∀ c ∈ ext.data, illegalChar c = false) :
    byteLen (sanitize_filename (truncTitle T ext ++ pyLower ext)) ≤ 255 ∧
      (pyLower ext).data <:+
        (sanitize_filename (truncTitle T ext ++ pyLower ext)).data := by
  constructor
  · have h1 : byteLen (sanitize_filename (truncTitle T ext ++ pyLower ext)) ≤
        byteLen (truncTitle T ext ++ pyLower ext) := by
      unfold sanitize_filename byteLen
      exact byteLenL_filter_le _ _
    have h2 : byteLen (truncTitle T ext ++ pyLower ext) =
        byteLen (truncTitle T ext) + byteLen ext := by
      unfold byteLen
      rw [data_append, byteLenL_append]
      congr 1
      exact byteLenL_map_lowerChar ext.data
    have h3 : byteLen (truncTitle T ext) + byteLen ext ≤ 255 := by
      unfold truncTitle byteLen
      exact truncFuel_bound (byteLen ext) h _ _ le_rfl
    omega
  · have hall : ∀ c ∈ (pyLower ext).data, (fun c => !illegalChar c) c = true := by
      intro c hc
      unfold pyLower at hc
      simp only [List.mem_map] at hc
      obtain ⟨c0, hc0, rfl⟩ := hc
      simp [lowerChar_legal c0 (hleg c0 hc0)]
    unfold sanitize_filename
    rw [data_append, List.filter_append, List.filter_eq_self.mpr hall]
    exact ⟨_, rfl⟩

/-! ## C9: termination of the byte-length truncation loop -/

/-- C9: the truncation loop of `get_filename` terminates for every title
provided the extension's UTF-8 encoding fits in 255 bytes: fuel equal to the
title's length (one iteration strictly drops one character) already reaches a
state where the loop guard is false, and any extra fuel changes nothing. -/
theorem trunc_loop_terminates (title ext : String) (h : byteLen ext ≤ 255) :
    byteLen (truncTitle title ext) + byteLen ext ≤ 255 ∧
      ∀ k, truncFuel (byteLen ext) (title.data.length + k) title.data =
        (truncTitle title ext).data := by
  constructor
  · unfold truncTitle byteLen
    exact truncFuel_bound (byteLen ext) h _ _ le_rfl
  · intro k
    unfold truncTitle
    exact truncFuel_stable (byteLen ext) h _ k _ le_rfl

/-- Witness for C9 at a concrete input. -/
theorem trunc_loop_terminates_witness :
    byteLen ".mp3" ≤ 255 ∧
      byteLen (truncTitle "some title" ".mp3") + byteLen ".mp3" ≤ 255 :=
  ⟨by decide, (trunc_loop_terminates "some title" ".mp3" (by decide)).1⟩

/-! ## C2: 255-byte bound and extension preservation of `get_filename` -/

set_option maxRecDepth 8000 in
/-- C2: whenever `get_filename` composes a name (rather than returning a
preserved original name), the result is at most 255 UTF-8 bytes and ends with
the lowercased resolved extension, provided that extension itself fits in 255
bytes and consists of filesystem-legal characters; and the spec's scenario —
a title of 300 'A' characters with extension `.mp3` — composes to exactly 255
bytes. -/
theorem get_filename_byte_bound :
    (∀ (track : Track) (orig : Option String) (aac : Bool)
        (pl : Option PlaylistInfo) (kw : Kwargs),
      (kw.original_name && pyTruthy orig) = false →
      byteLen (chosenExt aac orig) ≤ 255 →
      (∀ c ∈ (chosenExt aac orig).data, illegalChar c = false) →
      byteLen (get_filename track orig aac pl kw) ≤ 255 ∧
        (pyLower (chosenExt aac orig)).data <:+
          (get_filename track orig aac pl kw).data) ∧
    byteLen (get_filename trackA300 none false none kwScenario) = 255 := by
  constructor
  · intro track orig aac pl kw hcond hext hleg
    unfold get_filename
    rw [if_neg (by simp [hcond])]
    exact compose_bound _ _ hext hleg
  · decide

/-- Witness for C2 at a concrete input: default configuration, stream path,
`.mp3` extension. -/
theorem get_filename_byte_bound_witness :
    byteLen (get_filename cexTrack none false none {}) ≤ 255 :=
  (get_filename_byte_bound.1 cexTrack none false none {} (by decide) (by decide)
    (by decide)).1

/-! ## C5: the preserve-original-name early return -/

/-- C5 (amended): with `--original-name` set and a non-empty original
filename known, `get_filename` returns the original filename entirely
unchanged — no sanitization is applied. -/
theorem get_filename_original_name (track : Track) (orig : String) (aac : Bool)
    (pl : Option PlaylistInfo) (kw : Kwargs)
    (h : kw.original_name = true) (h2 : orig ≠ "") :
    get_filename track (some orig) aac pl kw = orig := by
  unfold get_filename
  rw [if_pos]
  · rfl
  · simp [pyTruthy, h, h2]

/-- Witness for C5 at a concrete input. -/
theorem get_filename_original_name_witness :
    get_filename cexTrack (some "Song.wav") false none { original_name := true }
      = "Song.wav" :=
  get_filename_original_name cexTrack "Song.wav" false none
    { original_name := true } rfl (by decide)

/-- Counterexample for C5 as stated: an original filename containing a
character illegal on common filesystems is returned verbatim, not sanitized
(`<` survives), contradicting "unchanged except for sanitization". -/
theorem get_filename_original_name_cex :
    get_filename cexTrack (some "a<b.mp3") false none { original_name := true }
        = "a<b.mp3" ∧
      sanitize_filename "a<b.mp3" ≠ "a<b.mp3" := by
  constructor
  · decide
  · decide

/-! ## C6: archive round trip -/

theorem digitChar_not_ws (m : Nat) : (Nat.digitChar m).isWhitespace = false := by
  by_cases hm : m < 16
  · interval_cases m <;> decide
  · have hstar : Nat.digitChar m = '*' := by
      unfold Nat.digitChar
      repeat rw [if_neg (by omega)]
    rw [hstar]
    decide

theorem toDigitsCore_not_ws (b : Nat) :
    ∀ (fuel n : Nat) (acc : List Char), (∀ c ∈ acc, c.isWhitespace = false) →
      ∀ c ∈ Nat.toDigitsCore b fuel n acc, c.isWhitespace = false := by
  intro fuel
  induction fuel with
  | zero =>
    intro n acc hacc c hc
    exact hacc c (by simpa [Nat.toDigitsCore] using hc)
  | succ fuel ih =>
    intro n acc hacc c hc
    rw [Nat.toDigitsCore] at hc
    by_cases hz : n / b = 0
    · simp only [hz, if_true] at hc
      rcases List.mem_cons.mp hc with h | h
      · subst h; exact digitChar_not_ws _
      · exact hacc c h
    · simp only [hz, if_false] at hc
      refine ih _ _ ?_ c hc
      intro c' hc'
      rcases List.mem_cons.mp hc' with h | h
      · subst h; exact digitChar_not_ws _
      · exact hacc c' h

theorem mem_natToString_not_ws (n : Nat) :
    ∀ c ∈ (toString n).data, c.isWhitespace = false := by
  intro c hc
  have hdata : (toString n).data = Nat.toDigits 10 n := rfl
  rw [hdata] at hc
  exact toDigitsCore_not_ws 10 (n + 1) n [] (by intro c h; cases h) c hc

theorem dropWhile_no_match (p : Char → Bool) (l : List Char)
    (h : ∀ c ∈ l, p c = false) : l.dropWhile p = l := by
  cases l with
  | nil => rfl
  | cons c rest => simp [List.dropWhile_cons, h c (by simp)]

theorem pyStrip_eq_self (s : String)
    (h : ∀ c ∈ s.data, c.isWhitespace = false) : pyStrip s = s := by
  unfold pyStrip
  rw [dropWhile_no_match _ _ h]
  rw [dropWhile_no_match _ _ (by intro c hc; exact h c (List.mem_reverse.mp hc))]
  rw [List.reverse_reverse]

theorem pyStrip_natToString (n : Nat) : pyStrip (toString n) = toString n :=
  pyStrip_eq_self _ (mem_natToString_not_ws n)

/-- C6: with archive tracking enabled, recording a track id and then testing
that same id for membership yields `true`; testing an id no archive line
strips to yields `false`. -/
theorem archive_round_trip (track track2 : Track) (kw : Kwargs)
    (archive : List String) (h : kw.download_archive = true) :
    in_download_archive track kw (record_download_archive track kw archive)
        = some true ∧
      ((∀ l ∈ record_download_archive track kw archive,
          pyStrip l ≠ toString track2.id) →
        in_download_archive track2 kw (record_download_archive track kw archive)
          = some false) := by
  constructor
  · unfold in_download_archive record_download_archive
    rw [h]
    simp only [Bool.not_true, Bool.false_eq_true, if_false]
    congr 1
    rw [List.any_append]
    simp [pyStrip_natToString]
  · intro hnone
    simp only [in_download_archive, h, Bool.not_true, Bool.false_eq_true, if_false,
      Option.some.injEq]
    rw [List.any_eq_false]
    intro l hl
    simpa using hnone l hl

/-- Witness for C6 at concrete inputs: record id 42 into an empty archive,
then check 42 (true) and 7 (false). -/
theorem archive_round_trip_witness :
    in_download_archive cexTrack cexKw (record_download_archive cexTrack cexKw [])
        = some true ∧
      in_download_archive cexTrack2 cexKw (record_download_archive cexTrack cexKw [])
        = some false :=
  ⟨(archive_round_trip cexTrack cexTrack2 cexKw [] rfl).1,
    (archive_round_trip cexTrack cexTrack2 cexKw [] rfl).2 (by decide)⟩

/-! ## C3 and C7: the idempotency check `already_downloaded` -/

theorem isfile_removeFile_self (fs : FS) (f : String) :
    isfile (removeFile fs f) f = false := by
  simp [isfile, removeFile, List.any_eq_false, List.mem_filter]

theorem isfile_removeFile_of_false (fs : FS) (f g : String)
    (h : isfile fs f = false) : isfile (removeFile fs g) f = false := by
  simp only [isfile, List.any_eq_false] at h
  simp only [isfile, removeFile, List.any_eq_false, List.mem_filter]
  intro x hx
  exact h x hx.1

/-- C3 (amended): the overwrite deletion applies only to the filesystem
checks of `already_downloaded` — with overwrite set and the archive check not
firing, the conflicting files are deleted and the check reports absent; but
archive membership is unaffected by overwrite, so any check that leaves the
verdict "present" without the continue, cleanup or force-metadata flags
aborts the batch (in flac mode, presence of a convertible source file
instead forces the verdict to absent, see C7). -/
theorem already_downloaded_policy (track : Track) (filename : String)
    (kw : Kwargs) (fs : FS) (archive : List String)
    (hc : kw.c = false) (hr : kw.remove = false) (hf : kw.force_metadata = false) :
    (kw.overwrite = true →
      (kw.download_archive && (in_download_archive track kw archive).getD false) = false →
      (already_downloaded track filename kw fs archive).1 = DlCheck.absent ∧
        isfile (already_downloaded track filename kw fs archive).2 filename = false) ∧
    (kw.overwrite = false →
      (isfile fs filename = true ∨
        (kw.flac && can_convert filename &&
          isfile fs (pyDropRight filename 4 ++ ".flac")) = true ∨
        (kw.download_archive && (in_download_archive track kw archive).getD false) = true) →
      (kw.flac && can_convert filename && isfile fs filename) = false →
      (already_downloaded track filename kw fs archive).1 = DlCheck.fatal) := by
  constructor
  · intro hov harch
    unfold already_downloaded
    simp only [hov, harch, if_true, if_false, Bool.false_eq_true, Bool.true_eq_false]
    split_ifs <;>
      simp_all [isfile_removeFile_self, isfile_removeFile_of_false]
  · intro hov hpres hnof
    unfold already_downloaded
    simp only [hov, hc, hr, hf, if_true, if_false, Bool.false_eq_true,
      Bool.true_eq_false, Bool.or_self]
    split_ifs <;> simp_all

/-- Witness for C3 at concrete inputs: with overwrite, a present target file
is deleted and the verdict is absent; without overwrite (and no continue,
cleanup or force-metadata flag), a present target file is fatal. -/
theorem already_downloaded_policy_witness :
    ((already_downloaded cexTrack "f.mp3" { overwrite := true } ⟨["f.mp3"]⟩ []).1
        = DlCheck.absent ∧
      isfile (already_downloaded cexTrack "f.mp3" { overwrite := true }
        ⟨["f.mp3"]⟩ []).2 "f.mp3" = false) ∧
    (already_downloaded cexTrack "f.mp3" {} ⟨["f.mp3"]⟩ []).1 = DlCheck.fatal :=
  ⟨(already_downloaded_policy cexTrack "f.mp3" { overwrite := true } ⟨["f.mp3"]⟩ []
      rfl rfl rfl).1 rfl (by decide),
    (already_downloaded_policy cexTrack "f.mp3" {} ⟨["f.mp3"]⟩ []
      rfl rfl rfl).2 rfl (Or.inl (by decide)) (by decide)⟩

/-- Counterexample for C3 as stated: presence reported by the archive check
(track id 42 in the archive) with the overwrite flag set does not delete
anything and does not report absent — `already_downloaded` exits the batch
instead. -/
theorem already_downloaded_policy_cex :
    (already_downloaded cexTrack "f.mp3"
        { overwrite := true, download_archive := true } ⟨[]⟩ ["42"]).1
        = DlCheck.fatal ∧
      DlCheck.fatal ≠ DlCheck.absent := by
  constructor
  · decide
  · decide

/-- C7 (amended): with the flac flag set and a convertible candidate
filename, presence of the pre-conversion source file on disk (with overwrite
unset) makes `already_downloaded` report absent — regardless of whether the
converted `.flac` sibling exists or the archive lists the track. -/
theorem already_downloaded_flac_source (track : Track) (filename : String)
    (kw : Kwargs) (fs : FS) (archive : List String) (h1 : kw.flac = true)
    (h2 : can_convert filename = true) (h3 : kw.overwrite = false)
    (h4 : isfile fs filename = true) :
    already_downloaded track filename kw fs archive = (DlCheck.absent, fs) := by
  unfold already_downloaded
  simp only [h1, h2, h3, h4, Bool.true_and, Bool.and_true, if_true, if_false,
    Bool.false_eq_true, Bool.true_eq_false]
  split_ifs <;> first | rfl | exact (‹False›).elim

/-- Witness for C7 at a concrete input: `x.wav` present without `x.flac`,
flac mode on, verdict absent. -/
theorem already_downloaded_flac_source_witness :
    already_downloaded cexTrack "x.wav" { flac := true } ⟨["x.wav"]⟩ []
      = (DlCheck.absent, ⟨["x.wav"]⟩) :=
  already_downloaded_flac_source cexTrack "x.wav" { flac := true } ⟨["x.wav"]⟩ []
    rfl (by decide) rfl (by decide)

/-- Counterexample for C7 as stated: with both `x.wav` and its converted
sibling `x.flac` on disk the check still reports absent (re-acquire), though
the claim's "exactly when ... without its converted .flac sibling" predicts
"present" here. -/
theorem already_downloaded_flac_source_cex :
    (already_downloaded cexTrack "x.wav" { flac := true }
        ⟨["x.wav", "x.flac"]⟩ []).1 = DlCheck.absent ∧
      isfile ⟨["x.wav", "x.flac"]⟩ "x.flac" = true := by
  constructor
  · decide
  · decide

/-! ## C8: artist extraction in `set_metadata` -/

/-- C8 (amended): with artist extraction off, or no dash variant in the
title, the artist is the uploader's username and the title is unchanged;
with extraction on, the title is split on the first dash variant — in the
fixed order of `dashes` — that occurs anywhere in it (`List.find?` over
`dashes` is exactly that first occurring variant, which the conjuncts relate
back to occurrence), and the artist and title become the first and second
split segments (stripped) — the second segment only, not everything right of
the dash.  Together the three conjuncts cover every title: `find?` returns
`none` exactly when no variant occurs. -/
theorem set_metadata_artist_extraction (username title : String) :
    set_metadata_artist_title username title false = (username, title) ∧
    ((∀ d ∈ dashes, pyIn d title = false) →
      set_metadata_artist_title username title true = (username, title)) ∧
    (∀ d, dashes.find? (fun dash => pyIn dash title) = some d →
      pyIn d title = true ∧ d ∈ dashes ∧
        set_metadata_artist_title username title true =
          (pyStrip ((pySplit title d).getD 0 ""),
            pyStrip ((pySplit title d).getD 1 ""))) := by
  refine ⟨rfl, ?_, ?_⟩
  · intro hno
    unfold set_metadata_artist_title
    rw [List.find?_eq_none.mpr (by intro d hd; simp [hno d hd])]
    rfl
  · intro d hd
    refine ⟨by simpa using List.find?_some hd, List.mem_of_find?_eq_some hd, ?_⟩
    unfold set_metadata_artist_title
    rw [hd]
    rfl

/-- Witness for C8 at a concrete input whose only dash variant is the
minus sign U+2212 (the second variant in the fixed order), through the
amended theorem. -/
theorem set_metadata_artist_extraction_witness :
    pyIn " − " "X − Y" = true ∧ (" − " : String) ∈ dashes ∧
      set_metadata_artist_title "uploader" "X − Y" true =
        (pyStrip ((pySplit "X − Y" " − ").getD 0 ""),
          pyStrip ((pySplit "X − Y" " − ").getD 1 "")) :=
  (set_metadata_artist_extraction "uploader" "X − Y").2.2 " − " (by decide)

/-- Counterexample for C8 as stated: for the title `"AA - BB - CC"` the code
sets the title tag to `"BB"` (the second split segment), not to the text
right of the first dash (`"BB - CC"`). -/
theorem set_metadata_artist_extraction_cex :
    set_metadata_artist_title "u" "AA - BB - CC" true = ("AA", "BB") ∧
      ("AA", "BB") ≠ (("AA", "BB - CC") : String × String) := by
  constructor
  · decide
  · decide

/-! ## C1, C4 and C10: the `download_track` pipeline -/

theorem rest_delta (net : Net) (track : Track) (kw : Kwargs)
    (fn : String) (w : World) :
    ∃ δ, (worldOf (original_file_rest net track kw fn w)).events
        = w.events ++ δ ∧
      (∀ e ∈ δ, e = Ev.origBodyDownload ∨ ∃ a b, e = Ev.convert a b) ∧
      (worldOf (original_file_rest net track kw fn w)).archive = w.archive := by
  unfold original_file_rest
  split
  · exact ⟨[], by simp [worldOf], by simp, by simp [worldOf]⟩
  · split
    · exact ⟨[], by simp [worldOf], by simp, by simp [worldOf]⟩
    · exact ⟨[], by simp [worldOf], by simp, by simp [worldOf]⟩
  · split
    · exact ⟨[Ev.origBodyDownload], by simp [worldOf, emit], by
        intro e he; simp at he; simp [he], by simp [worldOf, emit]⟩
    · split
      · refine ⟨[Ev.origBodyDownload, Ev.convert fn (flacSibling fn)],
          by simp [worldOf, emit], ?_, by simp [worldOf, emit]⟩
        intro e he; simp at he
        rcases he with rfl | rfl
        · simp
        · exact Or.inr ⟨_, _, rfl⟩
      · exact ⟨[Ev.origBodyDownload], by simp [worldOf, emit], by
          intro e he; simp at he; simp [he], by simp [worldOf, emit]⟩

theorem dof_delta (net : Net) (track : Track) (kw : Kwargs)
    (pl : Option PlaylistInfo) (w : World) :
    ∃ δ, (worldOf (download_original_file net track kw pl w)).events
        = w.events ++ (Ev.attemptOriginal :: δ) ∧
      (∀ e ∈ δ, e = Ev.origRequest ∨ e = Ev.origBodyDownload ∨
        ∃ a b, e = Ev.convert a b) ∧
      (worldOf (download_original_file net track kw pl w)).archive = w.archive := by
  unfold download_original_file
  split
  · exact ⟨[], by simp [worldOf, emit], by simp, by simp [worldOf, emit]⟩
  · split
    · exact ⟨[Ev.origRequest], by simp [worldOf, emit], by
        intro e he; simp at he; simp [he], by simp [worldOf, emit]⟩
    · split
      · exact ⟨[Ev.origRequest], by simp [worldOf, emit], by
          intro e he; simp at he; simp [he], by simp [worldOf, emit]⟩
      · obtain ⟨δ, hev, hmem, harch⟩ := rest_delta net track kw
          (get_filename track (some (provisional_name net)) false pl kw)
          (emit (emit w Ev.attemptOriginal) Ev.origRequest)
        refine ⟨Ev.origRequest :: δ, ?_, ?_, ?_⟩
        · rw [hev]; simp [emit]
        · intro e he
          rcases List.mem_cons.mp he with rfl | he
          · simp
          · rcases hmem e he with rfl | h
            · simp
            · exact Or.inr (Or.inr h)
        · rw [harch]; simp [emit]

theorem hls_delta (net : Net) (track : Track) (kw : Kwargs)
    (pl : Option PlaylistInfo) (w : World) :
    ∃ δ, (worldOf (download_hls net track kw pl w)).events
        = w.events ++ (Ev.attemptStream :: δ) ∧
      (∀ e ∈ δ, e = Ev.streamDownload) ∧
      (worldOf (download_hls net track kw pl w)).archive = w.archive := by
  unfold download_hls
  dsimp only
  split
  · exact ⟨[], by simp [worldOf, emit], by simp, by simp [worldOf, emit]⟩
  · exact ⟨[], by simp [worldOf, emit], by simp, by simp [worldOf, emit]⟩
  · split
    · exact ⟨[Ev.streamDownload], by simp [worldOf, emit], by
        intro e he; simp at he; simp [he], by simp [worldOf, emit]⟩
    · exact ⟨[Ev.streamDownload], by simp [worldOf, emit], by
        intro e he; simp at he; simp [he], by simp [worldOf, emit]⟩

theorem fin_delta (track : Track) (kw : Kwargs) (fn : String)
    (already : Bool) (w : World) :
    ∃ δ, (resultWorld (finish_track track kw fn already w)).events
        = w.events ++ δ ∧
      (resultWorld (finish_track track kw fn already w)).archive
        = record_download_archive track kw w.archive ∧
      (∀ e ∈ δ, e = Ev.keep fn ∨ e = Ev.alreadyMsg ∨ e = Ev.tag fn ∨
        e = Ev.tagUnsupported ∨ e = Ev.setUtime fn ∨ e = Ev.finished fn) ∧
      (∀ f, Ev.tag f ∈ δ → f = fn ∧ is_taggable fn = true) ∧
      (∀ f, Ev.finished f ∈ δ → f = fn ∧ Ev.setUtime f ∈ δ ∧
        (is_taggable f = false → Ev.tagUnsupported ∈ δ)) := by
  by_cases hrem : kw.remove = true
  · by_cases halr : (already && !kw.force_metadata) = true
    · simp only [finish_track, emit, hrem, halr, Bool.not_eq_false,
        Bool.not_eq_true, if_true, if_false, Bool.false_eq_true, Bool.true_eq_false,
        Bool.not_false, Bool.not_true, resultWorld]
      refine ⟨[Ev.keep fn, Ev.alreadyMsg], by simp, by simp, ?_, ?_, ?_⟩
      · intro e he; simp at he; rcases he with rfl | rfl <;> simp
      · intro f hf; simp at hf
      · intro f hf; simp at hf
    · by_cases hisf : isfile w.fs fn = false
      · simp only [finish_track, emit, hrem, halr, hisf, Bool.not_eq_false,
        Bool.not_eq_true, if_true, if_false, Bool.false_eq_true, Bool.true_eq_false,
        Bool.not_false, Bool.not_true, resultWorld]
        refine ⟨[Ev.keep fn], by simp, by simp, ?_, ?_, ?_⟩
        · intro e he; simp at he; simp [he]
        · intro f hf; simp at hf
        · intro f hf; simp at hf
      · by_cases htag : is_taggable fn = true
        · simp only [finish_track, emit, hrem, halr, hisf, htag, Bool.not_eq_false,
        Bool.not_eq_true, if_true, if_false, Bool.false_eq_true, Bool.true_eq_false,
        Bool.not_false, Bool.not_true, resultWorld]
          refine ⟨[Ev.keep fn, Ev.tag fn, Ev.setUtime fn, Ev.finished fn], by simp, by simp, ?_, ?_, ?_⟩
          · intro e he; simp at he; rcases he with rfl | rfl | rfl | rfl <;> simp
          · intro f hf; simp at hf; simp_all
          · intro f hf; simp at hf; simp_all
        · simp only [finish_track, emit, hrem, halr, hisf, htag, Bool.not_eq_false,
        Bool.not_eq_true, if_true, if_false, Bool.false_eq_true, Bool.true_eq_false,
        Bool.not_false, Bool.not_true, resultWorld]
          refine ⟨[Ev.keep fn, Ev.tagUnsupported, Ev.setUtime fn, Ev.finished fn], by simp, by simp, ?_, ?_, ?_⟩
          · intro e he; simp at he; rcases he with rfl | rfl | rfl | rfl <;> simp
          · intro f hf; simp at hf
          · intro f hf; simp at hf; simp_all
  · by_cases halr : (already && !kw.force_metadata) = true
    · simp only [finish_track, emit, hrem, halr, Bool.not_eq_false,
        Bool.not_eq_true, if_true, if_false, Bool.false_eq_true, Bool.true_eq_false,
        Bool.not_false, Bool.not_true, resultWorld]
      refine ⟨[Ev.alreadyMsg], by simp, by simp, ?_, ?_, ?_⟩
      · intro e he; simp at he; simp [he]
      · intro f hf; simp at hf
      · intro f hf; simp at hf
    · by_cases hisf : isfile w.fs fn = false
      · simp only [finish_track, emit, hrem, halr, hisf, Bool.not_eq_false,
        Bool.not_eq_true, if_true, if_false, Bool.false_eq_true, Bool.true_eq_false,
        Bool.not_false, Bool.not_true, resultWorld]
        refine ⟨[], by simp, by simp, ?_, ?_, ?_⟩
        · intro e he; simp at he
        · intro f hf; simp at hf
        · intro f hf; simp at hf
      · by_cases htag : is_taggable fn = true
        · simp only [finish_track, emit, hrem, halr, hisf, htag, Bool.not_eq_false,
        Bool.not_eq_true, if_true, if_false, Bool.false_eq_true, Bool.true_eq_false,
        Bool.not_false, Bool.not_true, resultWorld]
          refine ⟨[Ev.tag fn, Ev.setUtime fn, Ev.finished fn], by simp, by simp, ?_, ?_, ?_⟩
          · intro e he; simp at he; rcases he with rfl | rfl | rfl <;> simp
          · intro f hf; simp at hf; simp_all
          · intro f hf; simp at hf; simp_all
        · simp only [finish_track, emit, hrem, halr, hisf, htag, Bool.not_eq_false,
        Bool.not_eq_true, if_true, if_false, Bool.false_eq_true, Bool.true_eq_false,
        Bool.not_false, Bool.not_true, resultWorld]
          refine ⟨[Ev.tagUnsupported, Ev.setUtime fn, Ev.finished fn], by simp, by simp, ?_, ?_, ?_⟩
          · intro e he; simp at he; rcases he with rfl | rfl | rfl <;> simp
          · intro f hf; simp at hf
          · intro f hf; simp at hf; simp_all


/-- Event-trace characterization of one `download_track` run. -/
theorem download_track_events (net : Net) (track : Track) (kw : Kwargs)
    (pl : Option PlaylistInfo) (w : World) :
    ∃ δ, (resultWorld (download_track net track kw pl w)).events = w.events ++ δ ∧
      (∀ f, Ev.tag f ∈ δ → is_taggable f = true) ∧
      (∀ f, Ev.finished f ∈ δ → Ev.setUtime f ∈ δ ∧
        (is_taggable f = false → Ev.tagUnsupported ∈ δ)) ∧
      ((Ev.attemptOriginal ∈ δ) ↔ (track.streamable = true ∧
        (track.policy == "BLOCK") = false ∧
        (track.downloadable && track.has_downloads_left &&
          !kw.onlymp3 && !kw.no_original) = true)) ∧
      ((track.streamable = true ∧ (track.policy == "BLOCK") = false ∧
        (track.downloadable && track.has_downloads_left &&
          !kw.onlymp3 && !kw.no_original) = true) →
        δ.head? = some Ev.attemptOriginal) := by
  unfold download_track
  by_cases hstr : (!track.streamable) = true
  · rw [if_pos hstr]
    refine ⟨[], by simp [resultWorld], by simp, by simp, ?_, ?_⟩
    · simp only [List.not_mem_nil, false_iff]
      rintro ⟨h1, -, -⟩
      simp [h1] at hstr
    · rintro ⟨h1, -, -⟩
      simp [h1] at hstr
  · rw [if_neg hstr]
    by_cases hpol : (track.policy == "BLOCK") = true
    · rw [if_pos hpol]
      refine ⟨[], by simp [resultWorld], by simp, by simp, ?_, ?_⟩
      · simp only [List.not_mem_nil, false_iff]
        rintro ⟨-, h2, -⟩
        simp [h2] at hpol
      · rintro ⟨-, h2, -⟩
        simp [h2] at hpol
    · rw [if_neg hpol]
      have hs : track.streamable = true := by
        simpa using hstr
      have hb : (track.policy == "BLOCK") = false := by
        simpa using hpol
      dsimp only
      by_cases hcond : (track.downloadable && track.has_downloads_left &&
          !kw.onlymp3 && !kw.no_original) = true
      · rw [if_pos hcond]
        obtain ⟨δ1, h1, h2, -⟩ := dof_delta net track kw pl w
        rcases hdof : download_original_file net track kw pl w with w1 | ⟨⟨fnOpt, alr⟩, w1⟩
        · rw [hdof] at h1
          simp only [worldOf] at h1
          refine ⟨Ev.attemptOriginal :: δ1, by simp [resultWorld, h1], ?_, ?_, ?_, ?_⟩
          · intro f hf
            rcases List.mem_cons.mp hf with h | h
            · simp at h
            · rcases h2 _ h with h | h | ⟨a, b, h⟩ <;> simp at h
          · intro f hf
            rcases List.mem_cons.mp hf with h | h
            · simp at h
            · rcases h2 _ h with h | h | ⟨a, b, h⟩ <;> simp at h
          · simp [hs, hb, hcond]
          · intro _; rfl
        · rw [hdof] at h1
          simp only [worldOf] at h1
          rcases fnOpt with _ | fn
          · dsimp only
            by_cases hoo : kw.only_original = true
            · rw [if_pos hoo]
              refine ⟨Ev.attemptOriginal :: δ1, by simp [resultWorld, h1], ?_, ?_, ?_, ?_⟩
              · intro f hf
                rcases List.mem_cons.mp hf with h | h
                · simp at h
                · rcases h2 _ h with h | h | ⟨a, b, h⟩ <;> simp at h
              · intro f hf
                rcases List.mem_cons.mp hf with h | h
                · simp at h
                · rcases h2 _ h with h | h | ⟨a, b, h⟩ <;> simp at h
              · simp [hs, hb, hcond]
              · intro _; rfl
            · rw [if_neg hoo]
              obtain ⟨δ2, g1, g2, -⟩ := hls_delta net track kw pl w1
              rcases hhls : download_hls net track kw pl w1 with w2 | ⟨⟨fn, alr2⟩, w2⟩
              · rw [hhls] at g1
                simp only [worldOf] at g1
                refine ⟨Ev.attemptOriginal :: (δ1 ++ (Ev.attemptStream :: δ2)),
                  by simp [resultWorld, g1, h1], ?_, ?_, ?_, ?_⟩
                · intro f hf
                  rcases List.mem_cons.mp hf with h | h
                  · simp at h
                  · rcases List.mem_append.mp h with h | h
                    · rcases h2 _ h with h | h | ⟨a, b, h⟩ <;> simp at h
                    · rcases List.mem_cons.mp h with h | h
                      · simp at h
                      · exact absurd (g2 _ h) (by simp)
                · intro f hf
                  rcases List.mem_cons.mp hf with h | h
                  · simp at h
                  · rcases List.mem_append.mp h with h | h
                    · rcases h2 _ h with h | h | ⟨a, b, h⟩ <;> simp at h
                    · rcases List.mem_cons.mp h with h | h
                      · simp at h
                      · exact absurd (g2 _ h) (by simp)
                · simp [hs, hb, hcond]
                · intro _; rfl
              · rw [hhls] at g1
                simp only [worldOf] at g1
                obtain ⟨δ3, f1, -, f3, f4, f5⟩ := fin_delta track kw fn alr2 w2
                refine ⟨Ev.attemptOriginal ::
                  (δ1 ++ (Ev.attemptStream :: δ2) ++ δ3),
                  by simp [f1, g1, h1], ?_, ?_, ?_, ?_⟩
                · intro f hf
                  rcases List.mem_cons.mp hf with h | h
                  · simp at h
                  · rcases List.mem_append.mp h with h | h
                    · rcases List.mem_append.mp h with h | h
                      · rcases h2 _ h with h | h | ⟨a, b, h⟩ <;> simp at h
                      · rcases List.mem_cons.mp h with h | h
                        · simp at h
                        · exact absurd (g2 _ h) (by simp)
                    · obtain ⟨rfl, ht⟩ := f4 _ h
                      exact ht
                · intro f hf
                  rcases List.mem_cons.mp hf with h | h
                  · simp at h
                  · rcases List.mem_append.mp h with h | h
                    · rcases List.mem_append.mp h with h | h
                      · rcases h2 _ h with h | h | ⟨a, b, h⟩ <;> simp at h
                      · rcases List.mem_cons.mp h with h | h
                        · simp at h
                        · exact absurd (g2 _ h) (by simp)
                    · obtain ⟨rfl, hsu, hun⟩ := f5 _ h
                      refine ⟨?_, ?_⟩
                      · exact List.mem_cons_of_mem _ (List.mem_append_right _ hsu)
                      · intro hnt
                        exact List.mem_cons_of_mem _ (List.mem_append_right _ (hun hnt))
                · simp [hs, hb, hcond]
                · intro _; rfl
          · obtain ⟨δ3, f1, -, f3, f4, f5⟩ := fin_delta track kw fn alr w1
            refine ⟨Ev.attemptOriginal :: (δ1 ++ δ3),
              by simp [f1, h1], ?_, ?_, ?_, ?_⟩
            · intro f hf
              rcases List.mem_cons.mp hf with h | h
              · simp at h
              · rcases List.mem_append.mp h with h | h
                · rcases h2 _ h with h | h | ⟨a, b, h⟩ <;> simp at h
                · obtain ⟨rfl, ht⟩ := f4 _ h
                  exact ht
            · intro f hf
              rcases List.mem_cons.mp hf with h | h
              · simp at h
              · rcases List.mem_append.mp h with h | h
                · rcases h2 _ h with h | h | ⟨a, b, h⟩ <;> simp at h
                · obtain ⟨rfl, hsu, hun⟩ := f5 _ h
                  refine ⟨?_, ?_⟩
                  · exact List.mem_cons_of_mem _ (List.mem_append_right _ hsu)
                  · intro hnt
                    exact List.mem_cons_of_mem _ (List.mem_append_right _ (hun hnt))
            · simp [hs, hb, hcond]
            · intro _; rfl
      · rw [if_neg hcond]
        dsimp only
        by_cases hoo : kw.only_original = true
        · rw [if_pos hoo]
          refine ⟨[], by simp [resultWorld], by simp, by simp, ?_, ?_⟩
          · simp only [List.not_mem_nil, false_iff]
            rintro ⟨-, -, h3⟩
            exact hcond h3
          · rintro ⟨-, -, h3⟩
            exact absurd h3 hcond
        · rw [if_neg hoo]
          obtain ⟨δ2, g1, g2, -⟩ := hls_delta net track kw pl w
          rcases hhls : download_hls net track kw pl w with w2 | ⟨⟨fn, alr2⟩, w2⟩
          · rw [hhls] at g1
            simp only [worldOf] at g1
            refine ⟨Ev.attemptStream :: δ2, by simp [resultWorld, g1], ?_, ?_, ?_, ?_⟩
            · intro f hf
              rcases List.mem_cons.mp hf with h | h
              · simp at h
              · exact absurd (g2 _ h) (by simp)
            · intro f hf
              rcases List.mem_cons.mp hf with h | h
              · simp at h
              · exact absurd (g2 _ h) (by simp)
            · constructor
              · intro hmem
                rcases List.mem_cons.mp hmem with h | h
                · simp at h
                · exact absurd (g2 _ h) (by simp)
              · rintro ⟨-, -, h3⟩
                exact absurd h3 hcond
            · rintro ⟨-, -, h3⟩
              exact absurd h3 hcond
          · rw [hhls] at g1
            simp only [worldOf] at g1
            obtain ⟨δ3, f1, -, f3, f4, f5⟩ := fin_delta track kw fn alr2 w2
            refine ⟨(Ev.attemptStream :: δ2) ++ δ3,
              by simp [f1, g1], ?_, ?_, ?_, ?_⟩
            · intro f hf
              rcases List.mem_append.mp hf with h | h
              · rcases List.mem_cons.mp h with h | h
                · simp at h
                · exact absurd (g2 _ h) (by simp)
              · obtain ⟨rfl, ht⟩ := f4 _ h
                exact ht
            · intro f hf
              rcases List.mem_append.mp hf with h | h
              · rcases List.mem_cons.mp h with h | h
                · simp at h
                · exact absurd (g2 _ h) (by simp)
              · obtain ⟨rfl, hsu, hun⟩ := f5 _ h
                refine ⟨?_, ?_⟩
                · exact List.mem_append_right _ hsu
                · intro hnt
                  exact List.mem_append_right _ (hun hnt)
            · constructor
              · intro hmem
                rcases List.mem_append.mp hmem with h | h
                · rcases List.mem_cons.mp h with h | h
                  · simp at h
                  · exact absurd (g2 _ h) (by simp)
                · rcases f3 _ h with h | h | h | h | h | h <;> simp at h
              · rintro ⟨-, -, h3⟩
                exact absurd h3 hcond
            · rintro ⟨-, -, h3⟩
              exact absurd h3 hcond


/-- C10: in any `download_track` run, a tagging action is emitted only for a
final filename ending in `.mp3`, `.flac` or `.m4a`, and whenever a track
finishes, the timestamp update happened, with the logged
tagging-unsupported error in place of tagging for any other extension
(first conjunct); conversely, the finishing steps of `download_track`
(lines 555-588, `finish_track`) always return normally when the acquired
file exists and the already-downloaded early return does not fire — the
track completes, with timestamp update and completion, whether or not its
extension supports tagging (second conjunct); in particular a full run that
downloads an original `.wav` exits normally with the tagging-unsupported
error logged, the timestamp updated, and the track finished (third
conjunct). -/
theorem download_track_tagging :
    (∀ (net : Net) (track : Track) (kw : Kwargs) (pl : Option PlaylistInfo)
        (w : World),
      ∃ δ, (resultWorld (download_track net track kw pl w)).events
          = w.events ++ δ ∧
        (∀ f, Ev.tag f ∈ δ → is_taggable f = true) ∧
        (∀ f, Ev.finished f ∈ δ → Ev.setUtime f ∈ δ ∧
          (is_taggable f = false → Ev.tagUnsupported ∈ δ))) ∧
    (∀ (track : Track) (kw : Kwargs) (fn : String) (already : Bool) (w : World),
      (already && !kw.force_metadata) = false → isfile w.fs fn = true →
      ∃ w', finish_track track kw fn already w = Except.ok w' ∧
        Ev.setUtime fn ∈ w'.events ∧ Ev.finished fn ∈ w'.events ∧
        (is_taggable fn = false → Ev.tagUnsupported ∈ w'.events)) ∧
    (isOk (download_track wavNet wavTrack wavKw none emptyWorld) = true ∧
      is_taggable "song.wav" = false ∧
      Ev.tagUnsupported ∈
        (resultWorld (download_track wavNet wavTrack wavKw none emptyWorld)).events ∧
      Ev.setUtime "song.wav" ∈
        (resultWorld (download_track wavNet wavTrack wavKw none emptyWorld)).events ∧
      Ev.finished "song.wav" ∈
        (resultWorld (download_track wavNet wavTrack wavKw none emptyWorld)).events) := by
  refine ⟨?_, ?_, by decide⟩
  · intro net track kw pl w
    obtain ⟨δ, h1, h2, h3, -, -⟩ := download_track_events net track kw pl w
    exact ⟨δ, h1, h2, h3⟩
  · intro track kw fn already w halr hisf
    by_cases hrem : kw.remove = true
    · by_cases htag : is_taggable fn = true
      · refine ⟨⟨w.fs, record_download_archive track kw w.archive,
            w.events ++ [Ev.keep fn, Ev.tag fn, Ev.setUtime fn, Ev.finished fn]⟩,
            by simp [finish_track, emit, hrem, halr, hisf, htag], ?_, ?_, ?_⟩ <;>
          simp [htag]
      · refine ⟨⟨w.fs, record_download_archive track kw w.archive,
            w.events ++ [Ev.keep fn, Ev.tagUnsupported, Ev.setUtime fn, Ev.finished fn]⟩,
            by simp [finish_track, emit, hrem, halr, hisf, htag], ?_, ?_, ?_⟩ <;>
          simp [htag]
    · by_cases htag : is_taggable fn = true
      · refine ⟨⟨w.fs, record_download_archive track kw w.archive,
            w.events ++ [Ev.tag fn, Ev.setUtime fn, Ev.finished fn]⟩,
            by simp [finish_track, emit, hrem, halr, hisf, htag], ?_, ?_, ?_⟩ <;>
          simp [htag]
      · refine ⟨⟨w.fs, record_download_archive track kw w.archive,
            w.events ++ [Ev.tagUnsupported, Ev.setUtime fn, Ev.finished fn]⟩,
            by simp [finish_track, emit, hrem, halr, hisf, htag], ?_, ?_, ?_⟩ <;>
          simp [htag]

/-- Witness for C10 at concrete inputs: the finishing steps on a present,
non-taggable `song.wav` return normally with the timestamp update, the
completion, and the logged tagging-unsupported error. -/
theorem download_track_tagging_witness :
    ∃ w', finish_track cexTrack {} "song.wav" false ⟨⟨["song.wav"]⟩, [], []⟩
        = Except.ok w' ∧
      Ev.setUtime "song.wav" ∈ w'.events ∧ Ev.finished "song.wav" ∈ w'.events ∧
      (is_taggable "song.wav" = false → Ev.tagUnsupported ∈ w'.events) :=
  download_track_tagging.2.1 cexTrack {} "song.wav" false ⟨⟨["song.wav"]⟩, [], []⟩
    (by decide) (by decide)

/-- C4: for a streamable, non-geo-blocked track, `download_track` attempts
original-file acquisition exactly when the track is downloadable with
remaining entitlement and neither mp3-only nor no-original is set; and in
that case the original attempt is the first action of the run, hence before
any stream attempt. -/
theorem download_track_source_select (net : Net) (track : Track) (kw : Kwargs)
    (pl : Option PlaylistInfo) (w : World)
    (hs : track.streamable = true) (hb : track.policy ≠ "BLOCK") :
    ∃ δ, (resultWorld (download_track net track kw pl w)).events = w.events ++ δ ∧
      ((Ev.attemptOriginal ∈ δ) ↔
        (track.downloadable && track.has_downloads_left &&
          !kw.onlymp3 && !kw.no_original) = true) ∧
      ((track.downloadable && track.has_downloads_left &&
          !kw.onlymp3 && !kw.no_original) = true →
        δ.head? = some Ev.attemptOriginal) := by
  have hb' : (track.policy == "BLOCK") = false := by
    simp [hb]
  obtain ⟨δ, h1, -, -, h4, h5⟩ := download_track_events net track kw pl w
  refine ⟨δ, h1, ?_, fun hc => h5 ⟨hs, hb', hc⟩⟩
  rw [h4]
  simp [hs, hb']

theorem ad_skip (track : Track) (fn : String) (kw : Kwargs) (fs : FS)
    (archive : List String)
    (hfl : kw.flac = false) (hov : kw.overwrite = false) (hcc : kw.c = true)
    (hda : kw.download_archive = true)
    (hm : archive.any (fun l => pyStrip l == toString track.id) = true) :
    already_downloaded track fn kw fs archive = (DlCheck.skip, fs) := by
  have hmem : (in_download_archive track kw archive).getD false = true := by
    simp [in_download_archive, hda, hm]
  unfold already_downloaded
  simp only [hfl, hov, hcc, hda, hmem, if_true, if_false, Bool.false_and,
    Bool.true_and, Bool.and_true, Bool.false_eq_true, Bool.true_eq_false,
    Bool.true_or, Bool.or_true]
  split_ifs <;> simp_all

theorem dof_skip (net : Net) (track : Track) (kw : Kwargs)
    (pl : Option PlaylistInfo) (w : World)
    (hfl : kw.flac = false) (hov : kw.overwrite = false) (hcc : kw.c = true)
    (hda : kw.download_archive = true)
    (hm : w.archive.any (fun l => pyStrip l == toString track.id) = true) :
    ∃ δ r b, download_original_file net track kw pl w
        = .ok ((r, b), ⟨w.fs, w.archive, w.events ++ δ⟩) ∧
      ((r = (none : Option String) ∧ b = false) ∨
        (∃ fn, r = some fn ∧ b = true)) ∧
      Ev.origBodyDownload ∉ δ ∧ Ev.streamDownload ∉ δ := by
  unfold download_original_file
  split
  · exact ⟨[Ev.attemptOriginal], none, false, by simp [emit],
      Or.inl ⟨rfl, rfl⟩, by simp, by simp⟩
  · split
    · exact ⟨[Ev.attemptOriginal, Ev.origRequest], none, false, by simp [emit],
        Or.inl ⟨rfl, rfl⟩, by simp, by simp⟩
    · split
      · exact ⟨[Ev.attemptOriginal, Ev.origRequest], none, false, by simp [emit],
          Or.inl ⟨rfl, rfl⟩, by simp, by simp⟩
      · unfold original_file_rest
        dsimp only [emit]
        rw [ad_skip track _ kw _ _ hfl hov hcc hda hm]
        dsimp only
        rw [if_neg (by simp [hfl])]
        exact ⟨[Ev.attemptOriginal, Ev.origRequest],
          some (get_filename track (some (provisional_name net)) false pl kw), true,
          by simp [emit], Or.inr ⟨_, rfl, rfl⟩, by simp, by simp⟩

theorem hls_skip (net : Net) (track : Track) (kw : Kwargs)
    (pl : Option PlaylistInfo) (w : World)
    (hfl : kw.flac = false) (hov : kw.overwrite = false) (hcc : kw.c = true)
    (hda : kw.download_archive = true)
    (hm : w.archive.any (fun l => pyStrip l == toString track.id) = true) :
    ∃ fn, download_hls net track kw pl w
        = .ok ((fn, true), ⟨w.fs, w.archive, w.events ++ [Ev.attemptStream]⟩) := by
  unfold download_hls
  dsimp only [emit]
  rw [ad_skip track _ kw _ _ hfl hov hcc hda hm]
  exact ⟨get_filename track none (hls_aac track kw) pl kw, by simp [emit]⟩

theorem fin_already (track : Track) (kw : Kwargs) (fn : String) (w : World)
    (hda : kw.download_archive = true) :
    ∃ δ, resultWorld (finish_track track kw fn true w)
        = ⟨w.fs, w.archive ++ [toString track.id], w.events ++ δ⟩ ∧
      Ev.origBodyDownload ∉ δ ∧ Ev.streamDownload ∉ δ := by
  have hrec : record_download_archive track kw w.archive
      = w.archive ++ [toString track.id] := by
    simp [record_download_archive, hda]
  by_cases hrem : kw.remove = true
  · by_cases hfm : (true && !kw.force_metadata) = true
    · refine ⟨[Ev.keep fn, Ev.alreadyMsg], ?_, by simp, by simp⟩
      simp [finish_track, emit, hrem, hfm, hrec, resultWorld]
    · by_cases hisf : isfile w.fs fn = false
      · refine ⟨[Ev.keep fn], ?_, by simp, by simp⟩
        simp [finish_track, emit, hrem, hfm, hisf, hrec, resultWorld]
      · by_cases htag : is_taggable fn = true
        · refine ⟨[Ev.keep fn, Ev.tag fn, Ev.setUtime fn, Ev.finished fn], ?_,
            by simp, by simp⟩
          simp [finish_track, emit, hrem, hfm, hisf, htag, hrec, resultWorld]
        · refine ⟨[Ev.keep fn, Ev.tagUnsupported, Ev.setUtime fn, Ev.finished fn], ?_,
            by simp, by simp⟩
          simp [finish_track, emit, hrem, hfm, hisf, htag, hrec, resultWorld]
  · by_cases hfm : (true && !kw.force_metadata) = true
    · refine ⟨[Ev.alreadyMsg], ?_, by simp, by simp⟩
      simp [finish_track, emit, hrem, hfm, hrec, resultWorld]
    · by_cases hisf : isfile w.fs fn = false
      · refine ⟨[], ?_, by simp, by simp⟩
        simp [finish_track, emit, hrem, hfm, hisf, hrec, resultWorld]
      · by_cases htag : is_taggable fn = true
        · refine ⟨[Ev.tag fn, Ev.setUtime fn, Ev.finished fn], ?_,
            by simp, by simp⟩
          simp [finish_track, emit, hrem, hfm, hisf, htag, hrec, resultWorld]
        · refine ⟨[Ev.tagUnsupported, Ev.setUtime fn, Ev.finished fn], ?_,
            by simp, by simp⟩
          simp [finish_track, emit, hrem, hfm, hisf, htag, hrec, resultWorld]


/-- C1 (amended): a `download_track` run on a track whose id is already in
the archive (archive tracking and the continue flag on, flac and overwrite
off) performs zero download actions but still appends the id once more —
after n runs the archive holds n copies of the id, so membership, not
uniqueness, is the invariant; the filesystem is untouched. -/
theorem download_track_rerun (net : Net) (track : Track) (kw : Kwargs)
    (pl : Option PlaylistInfo) (w : World)
    (hda : kw.download_archive = true) (hcc : kw.c = true)
    (hfl : kw.flac = false) (hov : kw.overwrite = false)
    (hoo : kw.only_original = false)
    (hs : track.streamable = true) (hb : track.policy ≠ "BLOCK")
    (hm : w.archive.any (fun l => pyStrip l == toString track.id) = true) :
    ∃ δ, resultWorld (download_track net track kw pl w)
        = ⟨w.fs, w.archive ++ [toString track.id], w.events ++ δ⟩ ∧
      Ev.origBodyDownload ∉ δ ∧ Ev.streamDownload ∉ δ := by
  have hb' : (track.policy == "BLOCK") = false := by simp [hb]
  unfold download_track
  rw [if_neg (by simp [hs]), if_neg (by simp [hb'])]
  dsimp only
  by_cases hcond : (track.downloadable && track.has_downloads_left &&
      !kw.onlymp3 && !kw.no_original) = true
  · rw [if_pos hcond]
    obtain ⟨δ1, r, b, hdof, hrb, hnb1, hns1⟩ := dof_skip net track kw pl w
      hfl hov hcc hda hm
    rw [hdof]
    rcases hrb with ⟨rfl, rfl⟩ | ⟨fn, rfl, rfl⟩
    · dsimp only
      rw [if_neg (by simp [hoo])]
      obtain ⟨fn2, hhls⟩ := hls_skip net track kw pl ⟨w.fs, w.archive, w.events ++ δ1⟩
        hfl hov hcc hda hm
      rw [hhls]
      dsimp only
      obtain ⟨δ3, hfin, hnb3, hns3⟩ := fin_already track kw fn2
        ⟨w.fs, w.archive, (w.events ++ δ1) ++ [Ev.attemptStream]⟩ hda
      refine ⟨δ1 ++ [Ev.attemptStream] ++ δ3, ?_, ?_, ?_⟩
      · rw [hfin]
        simp
      · intro hmem
        rcases List.mem_append.mp hmem with h | h
        · rcases List.mem_append.mp h with h | h
          · exact hnb1 h
          · simp at h
        · exact hnb3 h
      · intro hmem
        rcases List.mem_append.mp hmem with h | h
        · rcases List.mem_append.mp h with h | h
          · exact hns1 h
          · simp at h
        · exact hns3 h
    · dsimp only
      obtain ⟨δ3, hfin, hnb3, hns3⟩ := fin_already track kw fn
        ⟨w.fs, w.archive, w.events ++ δ1⟩ hda
      refine ⟨δ1 ++ δ3, ?_, ?_, ?_⟩
      · rw [hfin]
        simp
      · intro hmem
        rcases List.mem_append.mp hmem with h | h
        · exact hnb1 h
        · exact hnb3 h
      · intro hmem
        rcases List.mem_append.mp hmem with h | h
        · exact hns1 h
        · exact hns3 h
  · rw [if_neg hcond]
    dsimp only
    rw [if_neg (by simp [hoo])]
    obtain ⟨fn2, hhls⟩ := hls_skip net track kw pl w hfl hov hcc hda hm
    rw [hhls]
    dsimp only
    obtain ⟨δ3, hfin, hnb3, hns3⟩ := fin_already track kw fn2
      ⟨w.fs, w.archive, w.events ++ [Ev.attemptStream]⟩ hda
    refine ⟨[Ev.attemptStream] ++ δ3, ?_, ?_, ?_⟩
    · rw [hfin]
      simp
    · intro hmem
      rcases List.mem_append.mp hmem with h | h
      · simp at h
      · exact hnb3 h
    · intro hmem
      rcases List.mem_append.mp hmem with h | h
      · simp at h
      · exact hns3 h

/-- Witness for C4 at concrete inputs. -/
theorem download_track_source_select_witness :
    ∃ δ, (resultWorld (download_track cexNet cexTrack cexKw none emptyWorld)).events
        = emptyWorld.events ++ δ ∧
      ((Ev.attemptOriginal ∈ δ) ↔
        (cexTrack.downloadable && cexTrack.has_downloads_left &&
          !cexKw.onlymp3 && !cexKw.no_original) = true) ∧
      ((cexTrack.downloadable && cexTrack.has_downloads_left &&
          !cexKw.onlymp3 && !cexKw.no_original) = true →
        δ.head? = some Ev.attemptOriginal) :=
  download_track_source_select cexNet cexTrack cexKw none emptyWorld rfl (by decide)

/-- Witness for C1 at concrete inputs: archive already holds "42". -/
theorem download_track_rerun_witness :
    ∃ δ, resultWorld (download_track cexNet cexTrack cexKw none ⟨⟨[]⟩, ["42"], []⟩)
        = ⟨⟨[]⟩, ["42"] ++ [toString cexTrack.id], ([] : List Ev) ++ δ⟩ ∧
      Ev.origBodyDownload ∉ δ ∧ Ev.streamDownload ∉ δ :=
  download_track_rerun cexNet cexTrack cexKw none ⟨⟨[]⟩, ["42"], []⟩
    rfl rfl rfl rfl rfl rfl (by decide) (by decide)

/-- Counterexample for C1 as stated: two full pipeline runs on track 42 with
archive tracking (and the continue flag, without which the second run exits
the batch) leave the archive with two entries for id 42, not exactly one. -/
theorem download_track_rerun_cex :
    (runTrackTwice cexNet cexTrack cexKw none emptyWorld).map World.archive
        = some ["42", "42"] ∧
      (["42", "42"].count "42") ≠ 1 := by
  constructor
  · decide
  · decide


end Scdl
